import Mathlib

/-!
Verification of the electronic-configuration enumeration notebook.

The program distributes `n` indistinguishable electrons over equally spaced
energy levels (level `j` has energy `j + 1/2`, occupancy 0, 1 or 2) and lists
every occupancy sequence whose total count is `n` and whose total energy is a
given `e`.  The notebook validates the parity of `(n, e)`, computes the
ground-state ladder and its energy, derives a fully-occupied frozen prefix
(`min_en`) and the highest reachable level (`max_en`), and then filters all
sequences over `{0,1,2}` on the residual levels by the two constraints.

Energies are half-integers, so twice the energy of a level is the odd integer
`2*j + 1`; the combinatorial core below works with these doubled integer
energies and is connected to the rational-valued pipeline afterwards.
-/

set_option maxHeartbeats 1000000

namespace ElectronicConfig

/-- Twice the total energy of the occupancy list `xs` placed on consecutive
levels starting at level `k` (level `j` contributes `xs[j] * (2*(k+j) + 1)`). -/
def dE : ℕ → List ℕ → ℕ
  | _, [] => 0
  | k, x :: xs => x * (2 * k + 1) + dE (k + 1) xs

/-- The bottom-packed occupancy list: `s` particles greedily fill `ℓ` levels
from the lowest level up, at most 2 per level. -/
def packedList : ℕ → ℕ → List ℕ
  | _, 0 => []
  | s, ℓ + 1 => min s 2 :: packedList (s - min s 2) ℓ

/-- The top-packed occupancy list: `s` particles greedily fill `ℓ` levels from
the highest level down, at most 2 per level (assuming `s ≤ 2*ℓ`). -/
def topPacked : ℕ → ℕ → List ℕ
  | _, 0 => []
  | s, ℓ + 1 => (s - 2 * ℓ) :: topPacked (min s (2 * ℓ)) ℓ

@[simp] lemma dE_nil (k : ℕ) : dE k [] = 0 := rfl

@[simp] lemma dE_cons (k x : ℕ) (xs : List ℕ) :
    dE k (x :: xs) = x * (2 * k + 1) + dE (k + 1) xs := rfl

lemma dE_append (a b : List ℕ) : ∀ k, dE k (a ++ b) = dE k a + dE (k + a.length) b := by
  induction a with
  | nil => intro k; simp
  | cons x xs ih =>
    intro k
    simp only [List.cons_append, dE_cons, ih (k + 1), List.length_cons]
    ring_nf

@[simp] lemma dE_replicate_zero (ℓ : ℕ) : ∀ k, dE k (List.replicate ℓ 0) = 0 := by
  induction ℓ with
  | zero => intro k; simp [List.replicate]
  | succ m ih => intro k; simp [List.replicate, ih]

lemma dE_replicate_two (m : ℕ) : ∀ k, dE k (List.replicate m 2) = 2 * m * (2 * k + m) := by
  induction m with
  | zero => intro k; simp [List.replicate]
  | succ m ih =>
    intro k
    simp only [List.replicate, dE_cons, ih (k + 1)]
    ring

@[simp] lemma packedList_length (s ℓ : ℕ) : (packedList s ℓ).length = ℓ := by
  induction ℓ generalizing s with
  | zero => rfl
  | succ ℓ ih => simp [packedList, ih]

lemma packedList_sum (s ℓ : ℕ) : (packedList s ℓ).sum = min s (2 * ℓ) := by
  induction ℓ generalizing s with
  | zero => simp [packedList]
  | succ ℓ ih =>
    simp only [packedList, List.sum_cons, ih]
    omega

lemma packedList_zero (ℓ : ℕ) : packedList 0 ℓ = List.replicate ℓ 0 := by
  induction ℓ with
  | zero => rfl
  | succ ℓ ih => simp [packedList, List.replicate, ih]

lemma packedList_drop (s ℓ k : ℕ) :
    (packedList s ℓ).drop k = packedList (s - 2 * k) (ℓ - k) := by
  induction k generalizing s ℓ with
  | zero => simp
  | succ k ih =>
    cases ℓ with
    | zero => simp [packedList]
    | succ ℓ =>
      have h2 : s - min s 2 - 2 * k = s - 2 * (k + 1) := by omega
      simp only [packedList, List.drop_succ_cons, ih, h2, Nat.succ_sub_succ]

lemma packedList_append (s ℓ₁ ℓ₂ : ℕ) :
    packedList s (ℓ₁ + ℓ₂) = packedList s ℓ₁ ++ packedList (s - 2 * ℓ₁) ℓ₂ := by
  induction ℓ₁ generalizing s with
  | zero => simp [packedList]
  | succ ℓ₁ ih =>
    have h2 : s - min s 2 - 2 * ℓ₁ = s - 2 * (ℓ₁ + 1) := by omega
    simp only [Nat.succ_add, packedList, List.cons_append, ih, h2]

@[simp] lemma topPacked_length (s ℓ : ℕ) : (topPacked s ℓ).length = ℓ := by
  induction ℓ generalizing s with
  | zero => rfl
  | succ ℓ ih => simp [topPacked, ih]

lemma topPacked_sum (s ℓ : ℕ) (h : s ≤ 2 * ℓ) : (topPacked s ℓ).sum = s := by
  induction ℓ generalizing s with
  | zero => simp [topPacked]; omega
  | succ ℓ ih =>
    have h2 : min s (2 * ℓ) ≤ 2 * ℓ := by omega
    simp only [topPacked, List.sum_cons, ih _ h2]
    omega

lemma topPacked_drop_sum (s ℓ k : ℕ) (h : s ≤ 2 * ℓ) :
    ((topPacked s ℓ).drop k).sum = min s (2 * (ℓ - k)) := by
  induction k generalizing s ℓ with
  | zero =>
    simp only [List.drop_zero, Nat.sub_zero, topPacked_sum s ℓ h]
    omega
  | succ k ih =>
    cases ℓ with
    | zero => simp [topPacked]
    | succ ℓ =>
      have h2 : min s (2 * ℓ) ≤ 2 * ℓ := by omega
      simp only [topPacked, List.drop_succ_cons, ih _ _ h2, Nat.succ_sub_succ]
      omega

lemma sum_le_two_mul_length (xs : List ℕ) (h : ∀ a ∈ xs, a ≤ 2) :
    xs.sum ≤ 2 * xs.length := by
  induction xs with
  | nil => simp
  | cons x t ih =>
    have hx : x ≤ 2 := h x (List.mem_cons_self x t)
    have ht := ih (fun a ha => h a (List.mem_cons_of_mem x ha))
    simp only [List.sum_cons, List.length_cons]
    omega

lemma take_sum_add_drop_sum (xs : List ℕ) (k : ℕ) :
    (xs.take k).sum + (xs.drop k).sum = xs.sum := by
  rw [← List.sum_append, List.take_append_drop]

lemma take_sum_le (xs : List ℕ) (k : ℕ) (h : ∀ a ∈ xs, a ≤ 2) :
    (xs.take k).sum ≤ 2 * k := by
  have hcap : ∀ a ∈ xs.take k, a ≤ 2 := fun a ha => h a (List.take_subset k xs ha)
  calc (xs.take k).sum ≤ 2 * (xs.take k).length := sum_le_two_mul_length _ hcap
    _ ≤ 2 * k := by have := List.length_take_le k xs; omega

lemma take_sum_le_of_small (xs : List ℕ) (i k : ℕ) (h : ∀ a ∈ xs, a ≤ 2)
    (hik : i < k) (hi : i < xs.length) (hsmall : xs[i] ≤ 1) :
    (xs.take k).sum + 1 ≤ 2 * k := by
  induction xs generalizing i k with
  | nil => simp at hi
  | cons x t ih =>
    cases k with
    | zero => omega
    | succ k =>
      simp only [List.take_succ_cons, List.sum_cons]
      cases i with
      | zero =>
        have hx : x ≤ 1 := by simpa using hsmall
        have := take_sum_le t k (fun a ha => h a (List.mem_cons_of_mem x ha))
        omega
      | succ i =>
        have hi' : i < t.length := by simpa using hi
        have hs' : t[i] ≤ 1 := by simpa using hsmall
        have hx : x ≤ 2 := h x (List.mem_cons_self x t)
        have := ih i k (fun a ha => h a (List.mem_cons_of_mem x ha)) (by omega) hi' hs'
        omega

/-- Summation-by-parts identity: twice the energy equals `(2k+1)` times the
particle count plus twice the sum of all proper tail sums. -/
lemma dE_eq_sum_tails (xs : List ℕ) : ∀ k,
    dE k xs = (2 * k + 1) * xs.sum + 2 * ∑ j ∈ Finset.range xs.length, ((xs.drop (j + 1)).sum) := by
  induction xs with
  | nil => intro k; simp
  | cons x t ih =>
    intro k
    have hdrop : ∀ j, ((x :: t).drop (j + 1)) = t.drop j := fun j => rfl
    simp only [dE_cons, ih (k + 1), List.length_cons, List.sum_cons, hdrop]
    rw [Finset.sum_range_succ']
    simp only [List.drop_zero]
    ring

/-- Core comparison lemma: among occupancy lists with the same length and the
same particle count, dominating every tail sum forces at least as much energy. -/
lemma dE_le_dE_of_tails_le (xs ys : List ℕ) (k : ℕ) (hlen : ys.length = xs.length)
    (hsum : ys.sum = xs.sum) (htails : ∀ j, (ys.drop j).sum ≤ (xs.drop j).sum) :
    dE k ys ≤ dE k xs := by
  rw [dE_eq_sum_tails, dE_eq_sum_tails, hsum, hlen]
  have : ∑ j ∈ Finset.range xs.length, ((ys.drop (j + 1)).sum)
      ≤ ∑ j ∈ Finset.range xs.length, ((xs.drop (j + 1)).sum) :=
    Finset.sum_le_sum (fun j _ => htails (j + 1))
  omega

/-- The bottom-packed list minimizes the (doubled) energy among occupancy lists
with entries at most 2, given length and particle count. -/
lemma packed_dE_le (xs : List ℕ) (k : ℕ) (hcap : ∀ a ∈ xs, a ≤ 2) :
    dE k (packedList xs.sum xs.length) ≤ dE k xs := by
  have hle : xs.sum ≤ 2 * xs.length := sum_le_two_mul_length xs hcap
  apply dE_le_dE_of_tails_le
  · simp
  · rw [packedList_sum]; omega
  · intro j
    rw [packedList_drop, packedList_sum]
    have h1 := take_sum_le xs j hcap
    have h2 := take_sum_add_drop_sum xs j
    omega

/-- The top-packed list maximizes the (doubled) energy among occupancy lists
with entries at most 2, given length and particle count. -/
lemma dE_le_top (xs : List ℕ) (k : ℕ) (hcap : ∀ a ∈ xs, a ≤ 2) :
    dE k xs ≤ dE k (topPacked xs.sum xs.length) := by
  have hle : xs.sum ≤ 2 * xs.length := sum_le_two_mul_length xs hcap
  apply dE_le_dE_of_tails_le
  · simp
  · rw [topPacked_sum _ _ hle]
  · intro j
    rw [topPacked_drop_sum _ _ _ hle]
    have hcapd : ∀ a ∈ xs.drop j, a ≤ 2 := fun a ha => hcap a (List.drop_subset j xs ha)
    have h1 := sum_le_two_mul_length (xs.drop j) hcapd
    have h2 := take_sum_add_drop_sum xs j
    have h3 := List.length_drop j xs
    omega

/-- Frozen-prefix core bound: if an occupancy list with entries at most 2 has a
deficient level `i` below half its particle count, its doubled energy exceeds
the packed (ground) energy by at least `2 * (sum/2 - i)`. -/
lemma dE_lower_of_small (xs : List ℕ) (i : ℕ) (hcap : ∀ a ∈ xs, a ≤ 2)
    (hi : i < xs.length) (hsmall : xs[i] ≤ 1) :
    dE 0 (packedList xs.sum xs.length) + 2 * (xs.sum / 2 - i) ≤ dE 0 xs := by
  set n := xs.sum with hn
  set M := xs.length with hM
  set m := n / 2 with hm
  have hn2M : n ≤ 2 * M := sum_le_two_mul_length xs hcap
  have hmM : m ≤ M := by omega
  have hpsum : (packedList n M).sum = n := by rw [packedList_sum]; omega
  rw [dE_eq_sum_tails, dE_eq_sum_tails, hpsum, packedList_length, ← hn, ← hM]
  have key : ∑ j ∈ Finset.range M, (((packedList n M).drop (j + 1)).sum + (if i ≤ j ∧ j < m then 1 else 0))
      ≤ ∑ j ∈ Finset.range M, ((xs.drop (j + 1)).sum) := by
    apply Finset.sum_le_sum
    intro j _
    rw [packedList_drop, packedList_sum]
    by_cases hj : i ≤ j ∧ j < m
    · have h1 := take_sum_le_of_small xs i (j + 1) hcap (by omega) hi hsmall
      have h2 := take_sum_add_drop_sum xs (j + 1)
      simp only [hj, and_self, if_pos]
      omega
    · have h1 := take_sum_le xs (j + 1) hcap
      have h2 := take_sum_add_drop_sum xs (j + 1)
      simp only [hj, if_false]
      omega
  have hcount : ∑ j ∈ Finset.range M, (if i ≤ j ∧ j < m then (1 : ℕ) else 0) = m - i := by
    have hfil : (Finset.range M).filter (fun j => i ≤ j ∧ j < m) = Finset.Ico i m := by
      ext j
      simp only [Finset.mem_filter, Finset.mem_range, Finset.mem_Ico]
      omega
    rw [← Finset.card_filter, hfil, Nat.card_Ico]
  rw [Finset.sum_add_distrib, hcount] at key
  omega

/-!  The exhaustive generator over the alphabet `{0,1,2}` (the notebook's
`variations([0,1,2], L, True)`), in the same order: position 0 varies slowest. -/

/-- All occupancy lists of length `L` over `{0,1,2}`, in the order produced by
`sympy.utilities.iterables.variations([0,1,2], L, True)` (lexicographic, first
position slowest). -/
def allLists : ℕ → List (List ℕ)
  | 0 => [[]]
  | L + 1 =>
      (allLists L).map (0 :: ·) ++ (allLists L).map (1 :: ·) ++ (allLists L).map (2 :: ·)

lemma mem_allLists (L : ℕ) : ∀ xs, xs ∈ allLists L ↔ (xs.length = L ∧ ∀ a ∈ xs, a ≤ 2) := by
  induction L with
  | zero =>
    intro xs
    constructor
    · intro h
      simp only [allLists, List.mem_singleton] at h
      subst h; simp
    · intro ⟨h1, _⟩
      rw [List.length_eq_zero] at h1
      simp [allLists, h1]
  | succ L ih =>
    intro xs
    simp only [allLists, List.mem_append, List.mem_map]
    constructor
    · rintro ((⟨t, ht, rfl⟩ | ⟨t, ht, rfl⟩) | ⟨t, ht, rfl⟩) <;>
        · obtain ⟨hlen, hcap⟩ := (ih t).1 ht
          refine ⟨by simp [hlen], ?_⟩
          intro a ha
          rcases List.mem_cons.1 ha with h | h
          · omega
          · exact hcap a h
    · rintro ⟨hlen, hcap⟩
      match xs with
      | [] => simp at hlen
      | x :: t =>
        have hlt : t.length = L := by simpa using hlen
        have hct : ∀ a ∈ t, a ≤ 2 := fun a ha => hcap a (List.mem_cons_of_mem x ha)
        have hmem : t ∈ allLists L := (ih t).2 ⟨hlt, hct⟩
        have hx : x ≤ 2 := hcap x (List.mem_cons_self x t)
        interval_cases x
        · exact Or.inl (Or.inl ⟨t, hmem, rfl⟩)
        · exact Or.inl (Or.inr ⟨t, hmem, rfl⟩)
        · exact Or.inr ⟨t, hmem, rfl⟩

/-!  The filtered enumeration, expressed as a recursion on the residual level
count, first without pruning (`enumU`) and then with sound interval pruning
(`enumP`); both produce the lists in the same order as filtering `allLists`. -/

/-- Unpruned recursive enumeration: all occupancy lists of length `ℓ` over
`{0,1,2}` on levels `k, k+1, ...` with particle count `s` and doubled energy
`t`, in generation order. -/
def enumU : ℕ → ℤ → ℤ → ℕ → List (List ℕ)
  | 0, s, t, _ => if s = 0 ∧ t = 0 then [[]] else []
  | ℓ + 1, s, t, k =>
      (enumU ℓ s t (k + 1)).map (0 :: ·)
        ++ (enumU ℓ (s - 1) (t - (2 * k + 1)) (k + 1)).map (1 :: ·)
        ++ (enumU ℓ (s - 2) (t - 2 * (2 * k + 1)) (k + 1)).map (2 :: ·)

/-- Doubled energy of the bottom-packed arrangement: the least doubled energy
that `s` particles can have on the `ℓ` levels starting at level `k`. -/
def minDE (s k ℓ : ℕ) : ℕ := dE k (packedList s ℓ)

/-- Doubled energy of the top-packed arrangement: the greatest doubled energy
that `s` particles can have on the `ℓ` levels starting at level `k`. -/
def maxDE (s k ℓ : ℕ) : ℕ := dE k (topPacked s ℓ)

/-- Pruned recursive enumeration: identical to `enumU` except that branches
whose particle count or doubled energy is out of the achievable interval are
cut off (they are provably empty, so the output list is unchanged). -/
def enumP : ℕ → ℤ → ℤ → ℕ → List (List ℕ)
  | 0, s, t, _ => if s = 0 ∧ t = 0 then [[]] else []
  | ℓ + 1, s, t, k =>
      if s < 0 ∨ (2 * (ℓ + 1) : ℤ) < s ∨ t < (minDE s.toNat k (ℓ + 1) : ℤ)
          ∨ ((maxDE s.toNat k (ℓ + 1) : ℤ)) < t then []
      else
        (enumP ℓ s t (k + 1)).map (0 :: ·)
          ++ (enumP ℓ (s - 1) (t - (2 * k + 1)) (k + 1)).map (1 :: ·)
          ++ (enumP ℓ (s - 2) (t - 2 * (2 * k + 1)) (k + 1)).map (2 :: ·)

lemma enumU_sound (ℓ : ℕ) : ∀ (s t : ℤ) (k : ℕ) (xs : List ℕ), xs ∈ enumU ℓ s t k →
    xs.length = ℓ ∧ (∀ a ∈ xs, a ≤ 2) ∧ (xs.sum : ℤ) = s ∧ (dE k xs : ℤ) = t := by
  induction ℓ with
  | zero =>
    intro s t k xs h
    simp only [enumU] at h
    split at h
    · next hst =>
      simp only [List.mem_singleton] at h
      subst h
      exact ⟨rfl, by simp, by simp [hst.1], by simp [hst.2]⟩
    · simp at h
  | succ ℓ ih =>
    intro s t k xs h
    simp only [enumU, List.mem_append, List.mem_map] at h
    rcases h with ((⟨u, hu, rfl⟩ | ⟨u, hu, rfl⟩) | ⟨u, hu, rfl⟩) <;>
    · obtain ⟨h1, h2, h3, h4⟩ := ih _ _ _ _ hu
      refine ⟨by simp [h1], ?_, ?_, ?_⟩
      · intro a ha
        rcases List.mem_cons.1 ha with h | h
        · omega
        · exact h2 a h
      · push_cast [List.sum_cons] at h3 ⊢
        omega
      · rw [dE_cons]
        push_cast at h4 ⊢
        omega

lemma enumU_eq_filter (ℓ : ℕ) : ∀ (s t : ℤ) (k : ℕ),
    enumU ℓ s t k
      = (allLists ℓ).filter (fun xs => decide ((xs.sum : ℤ) = s ∧ (dE k xs : ℤ) = t)) := by
  induction ℓ with
  | zero =>
    intro s t k
    simp only [allLists, enumU, List.filter_singleton, List.sum_nil, dE_nil, Nat.cast_zero]
    by_cases h : s = 0 ∧ t = 0
    · obtain ⟨rfl, rfl⟩ := h
      simp
    · rw [if_neg h, decide_eq_false (fun hc => h ⟨hc.1.symm, hc.2.symm⟩)]
      rfl
  | succ ℓ ih =>
    intro s t k
    simp only [allLists, enumU, List.filter_append]
    congr 1
    congr 1
    · rw [List.filter_map, ih s t (k + 1), List.filter_congr]
      intro xs _
      simp only [Function.comp_apply, decide_eq_decide, List.sum_cons, dE_cons]
      push_cast
      constructor <;> (rintro ⟨h1, h2⟩; constructor <;> omega)
    · rw [List.filter_map, ih (s - 1) (t - (2 * k + 1)) (k + 1), List.filter_congr]
      intro xs _
      simp only [Function.comp_apply, decide_eq_decide, List.sum_cons, dE_cons]
      push_cast
      constructor <;> (rintro ⟨h1, h2⟩; constructor <;> omega)
    · rw [List.filter_map, ih (s - 2) (t - 2 * (2 * k + 1)) (k + 1), List.filter_congr]
      intro xs _
      simp only [Function.comp_apply, decide_eq_decide, List.sum_cons, dE_cons]
      push_cast
      constructor <;> (rintro ⟨h1, h2⟩; constructor <;> omega)

lemma enumU_empty_of_pruned (ℓ : ℕ) (s t : ℤ) (k : ℕ)
    (h : s < 0 ∨ (2 * ℓ : ℤ) < s ∨ t < (minDE s.toNat k ℓ : ℤ) ∨ ((maxDE s.toNat k ℓ : ℤ)) < t) :
    enumU ℓ s t k = [] := by
  rw [List.eq_nil_iff_forall_not_mem]
  intro xs hxs
  obtain ⟨hlen, hcap, hsum, hdE⟩ := enumU_sound ℓ s t k xs hxs
  have hs0 : (0 : ℤ) ≤ s := by rw [← hsum]; positivity
  have hs2 : s ≤ 2 * ℓ := by
    rw [← hsum, ← hlen]
    exact_mod_cast sum_le_two_mul_length xs hcap
  have htn : s.toNat = xs.sum := by omega
  have hmin : (minDE s.toNat k ℓ : ℤ) ≤ t := by
    rw [← hdE, htn, minDE, ← hlen]
    exact_mod_cast packed_dE_le xs k hcap
  have hmax : t ≤ (maxDE s.toNat k ℓ : ℤ) := by
    rw [← hdE, htn, maxDE, ← hlen]
    exact_mod_cast dE_le_top xs k hcap
  omega

lemma enumP_eq_enumU (ℓ : ℕ) : ∀ (s t : ℤ) (k : ℕ), enumP ℓ s t k = enumU ℓ s t k := by
  induction ℓ with
  | zero => intro s t k; rfl
  | succ ℓ ih =>
    intro s t k
    rw [enumP]
    split
    · next h => exact (enumU_empty_of_pruned (ℓ + 1) s t k h).symm
    · rw [enumU, ih, ih, ih]

/-!  ## The notebook pipeline

`n` is the number of electrons and `e` the requested total energy.  The
notebook computes with numpy floats, but every value arising is a half-integer
of small magnitude, which binary floating point represents exactly; the
embedding therefore uses `ℚ` for all float-valued quantities. -/

/-- The energy ladder `np.arange(0.5, 0.5 + m)` shifted to start at level `k`:
the list `[k + 0.5, k + 1.5, ..., k + m - 0.5]` (the notebook always builds it
with `k = 0`; slicing produces shifted ladders). -/
def energyListQ : ℕ → ℕ → List ℚ
  | _, 0 => []
  | k, m + 1 => ((k : ℚ) + 1 / 2) :: energyListQ (k + 1) m

/-- `np.dot` of an occupancy vector with an energy vector (all uses in the
notebook have equal lengths). -/
def dotQ : List ℕ → List ℚ → ℚ
  | [], _ => 0
  | _, [] => 0
  | x :: xs, q :: qs => (x : ℚ) * q + dotQ xs qs

/-- `np.dot` of two rational vectors (used for `temp_energy · (ones * 2)`). -/
def dotQQ : List ℚ → List ℚ → ℚ
  | [], _ => 0
  | _, [] => 0
  | p :: ps, q :: qs => p * q + dotQQ ps qs

/-- Python `int(...)` applied to an exact float value: truncation toward 0. -/
def pyInt (q : ℚ) : ℤ := if 0 ≤ q then ⌊q⌋ else ⌈q⌉

/-- Cell 4's validity condition
`(n%2==0 and e%1==0) or (n%2==1 and e%1==0.5)`; `x % 1` on floats is the
fractional part `Int.fract`. -/
def parityOk (n : ℕ) (e : ℚ) : Prop :=
  (n % 2 = 0 ∧ Int.fract e = 0) ∨ (n % 2 = 1 ∧ Int.fract e = 1 / 2)

instance parityOk.dec (n : ℕ) (e : ℚ) : Decidable (parityOk n e) := by
  unfold parityOk; infer_instance

/-- Cell 6: `electron_states = np.ones(n//2)*2`, with a `1` appended when `n`
is odd. -/
def electron_states (n : ℕ) : List ℕ :=
  List.replicate (n / 2) 2 ++ (if n % 2 = 0 then [] else [1])

/-- Cell 10: `ground_state_energy = np.dot(electron_states, energy)` where
`energy = np.arange(0.5, 0.5 + len(electron_states))`. -/
def ground_state_energy (n : ℕ) : ℚ :=
  dotQ (electron_states n) (energyListQ 0 (electron_states n).length)

/-- Cell 12: `max_en = int(len(electron_states) + (e - ground_state_energy))`. -/
def max_en (n : ℕ) (e : ℚ) : ℤ :=
  pyInt (((electron_states n).length : ℚ) + (e - ground_state_energy n))

/-- Cell 12: `min_en = int(len(electron_states) - (e - ground_state_energy))`,
decremented by 1 when `n` is odd, then clamped to 0 when not positive. -/
def min_en (n : ℕ) (e : ℚ) : ℤ :=
  let m0 := pyInt (((electron_states n).length : ℚ) - (e - ground_state_energy n))
      - (if n % 2 = 1 then 1 else 0)
  if 0 < m0 then m0 else 0

/-- Cell 14 pads `electron_states` with zeros `while len < max_en`; the ladder
length becomes `max(len, max_en)`. -/
def totalLen (n : ℕ) (e : ℚ) : ℕ :=
  max (electron_states n).length (max_en n e).toNat

/-- Cell 15: the recomputed energy ladder over the padded length. -/
def energyFull (n : ℕ) (e : ℚ) : List ℚ := energyListQ 0 (totalLen n e)

/-- Cell 17: `temp_energy = energy[:min_en]`, replaced by `np.array([0])` when
`min_en == 0`. -/
def temp_energy (n : ℕ) (e : ℚ) : List ℚ :=
  if min_en n e = 0 then [0] else (energyFull n e).take (min_en n e).toNat

/-- Cell 18: the residual energies `energy = energy[min_en:]`. -/
def resEnergy (n : ℕ) (e : ℚ) : List ℚ := (energyFull n e).drop (min_en n e).toNat

/-- Cell 20: `updated_n = n - min_en*2`. -/
def updated_n (n : ℕ) (e : ℚ) : ℤ := (n : ℤ) - min_en n e * 2

/-- Cell 20:
`updated_e = e - np.dot(temp_energy, np.ones(len(temp_energy))*2)`. -/
def updated_e (n : ℕ) (e : ℚ) : ℚ :=
  e - dotQQ (temp_energy n e) (List.replicate (temp_energy n e).length 2)

/-- Cell 20, the loop filter: the residual occupancy lists `i` drawn from
`variations([0,1,2], len(energy), True)` that satisfy
`sum(i) == updated_n and np.dot(i, energy) == updated_e`, in emission order. -/
def emittedTails (n : ℕ) (e : ℚ) : List (List ℕ) :=
  (allLists (resEnergy n e).length).filter
    (fun i => decide ((i.sum : ℤ) = updated_n n e ∧ dotQ i (resEnergy n e) = updated_e n e))

/-- Cell 20: the printed configurations `np.append(np.ones(min_en)*2, i)`, in
emission order. -/
def configs (n : ℕ) (e : ℚ) : List (List ℕ) :=
  (emittedTails n e).map (fun i => List.replicate (min_en n e).toNat 2 ++ i)

/-- Cell 20: the reported number of configurations (the `count` variable). -/
def count (n : ℕ) (e : ℚ) : ℕ := (emittedTails n e).length

/-- The full ladder length searched by the program,
`maxLevel = int(max_en)` as a natural number. -/
def maxLevel (n : ℕ) (e : ℚ) : ℕ := (max_en n e).toNat

/-- The condition under which the notebook prints its `Invalid values` warning:
the parity check of cell 4 fails, or cell 10 finds `e` below the ground-state
energy. -/
def invalidValuesSignaled (n : ℕ) (e : ℚ) : Prop :=
  ¬ parityOk n e ∨ e < ground_state_energy n

instance invalidValuesSignaled.dec (n : ℕ) (e : ℚ) : Decidable (invalidValuesSignaled n e) := by
  unfold invalidValuesSignaled; infer_instance

/-- The normalizer: it performs the two validation checks (cells 4 and 10) and
derives the reduced problem (cells 12-20): frozen prefix length `min_en`,
ladder bound `max_en`, residual energies, and residual targets.  The notebook
signals invalid inputs by printing `Invalid values`; the signal is modelled as
`Except.error`, per the spec's `normalize -> ReducedProblem | InvalidInputError`. -/
def normalize (n : ℕ) (e : ℚ) : Except Unit (ℤ × ℤ × List ℚ × ℤ × ℚ) :=
  if invalidValuesSignaled n e then Except.error ()
  else Except.ok (min_en n e, max_en n e, resEnergy n e, updated_n n e, updated_e n e)

/-- Spec-side comparator for the refinement claim: the full enumeration over
all `maxLevel` levels, keeping exactly the occupancy sequences with particle
count `n` and total energy `e`, in the generation order of `allLists`. -/
def fullEnumeration (n : ℕ) (e : ℚ) : List (List ℕ) :=
  (allLists (maxLevel n e)).filter
    (fun c => decide ((c.sum : ℤ) = (n : ℤ) ∧ dotQ c (energyListQ 0 (maxLevel n e)) = e))

/-- Modelled from the spec: the caller-specified safety bound and the
`SearchSpaceTooLargeError` of spec sections 4.2, 6 and 7 have no counterpart in
the notebook (its loop always runs).  Per the spec's words, the enumerator
signals the error carrying the computed residual level count `L` when `L`
exceeds the caller's bound, and otherwise returns the enumeration result. -/
def enumerateBounded (n : ℕ) (e : ℚ) (bound : ℕ) : Except ℕ (List (List ℕ)) :=
  if bound < (resEnergy n e).length then Except.error (resEnergy n e).length
  else Except.ok (configs n e)

/-!  ## Basic facts about the pipeline quantities -/

@[simp] lemma energyListQ_length (m : ℕ) : ∀ k, (energyListQ k m).length = m := by
  induction m with
  | zero => intro k; rfl
  | succ m ih => intro k; simp [energyListQ, ih]

lemma energyListQ_drop (a : ℕ) : ∀ (k m : ℕ),
    (energyListQ k m).drop a = energyListQ (k + a) (m - a) := by
  induction a with
  | zero => intro k m; simp
  | succ a ih =>
    intro k m
    cases m with
    | zero => simp [energyListQ]
    | succ m =>
      have hk : k + 1 + a = k + (a + 1) := by omega
      simp only [energyListQ, List.drop_succ_cons, ih (k + 1) m, hk, Nat.succ_sub_succ]

lemma energyListQ_take (a : ℕ) : ∀ (k m : ℕ), a ≤ m →
    (energyListQ k m).take a = energyListQ k a := by
  induction a with
  | zero => intro k m _; simp [energyListQ]
  | succ a ih =>
    intro k m h
    cases m with
    | zero => omega
    | succ m => simp only [energyListQ, List.take_succ_cons, ih (k + 1) m (by omega)]

/-- The rational energy pipeline is half the doubled-integer one. -/
lemma dotQ_dE (l : List ℕ) : ∀ k, dotQ l (energyListQ k l.length) = (dE k l : ℚ) / 2 := by
  induction l with
  | nil => intro k; simp [dotQ, energyListQ]
  | cons x xs ih =>
    intro k
    simp only [List.length_cons, energyListQ, dotQ, ih (k + 1), dE_cons]
    push_cast
    ring

lemma energyListQ_sum (m : ℕ) : ∀ k, 2 * (energyListQ k m).sum = ((m * (2 * k + m) : ℕ) : ℚ) := by
  induction m with
  | zero => intro k; simp [energyListQ]
  | succ m ih =>
    intro k
    simp only [energyListQ, List.sum_cons]
    have := ih (k + 1)
    push_cast at this ⊢
    nlinarith [this]

lemma dotQQ_replicate_two (es : List ℚ) : dotQQ es (List.replicate es.length 2) = 2 * es.sum := by
  induction es with
  | nil => simp [dotQQ]
  | cons p ps ih =>
    simp only [List.length_cons, List.replicate, dotQQ, List.sum_cons, ih]
    ring

lemma states_length (n : ℕ) : (electron_states n).length = n / 2 + n % 2 := by
  unfold electron_states
  rcases Nat.mod_two_eq_zero_or_one n with h | h <;> simp [h]

lemma dE_states (n : ℕ) :
    dE 0 (electron_states n) = 2 * (n / 2) * (n / 2) + n % 2 * (2 * (n / 2) + 1) := by
  unfold electron_states
  rcases Nat.mod_two_eq_zero_or_one n with h | h <;>
    simp [h, dE_append, dE_replicate_two, dE_cons, List.length_replicate]

lemma gse_eq_dE (n : ℕ) : ground_state_energy n = (dE 0 (electron_states n) : ℚ) / 2 :=
  dotQ_dE (electron_states n) 0

lemma gse_even (n : ℕ) (h : n % 2 = 0) :
    ground_state_energy n = (((n / 2) ^ 2 : ℕ) : ℚ) := by
  rw [gse_eq_dE, dE_states, h]
  push_cast
  ring

lemma gse_odd (n : ℕ) (h : n % 2 = 1) :
    ground_state_energy n = (((n / 2) ^ 2 + n / 2 : ℕ) : ℚ) + 1 / 2 := by
  rw [gse_eq_dE, dE_states, h]
  push_cast
  ring

@[simp] lemma pyInt_intCast (z : ℤ) : pyInt (z : ℚ) = z := by
  unfold pyInt
  split_ifs <;> simp

@[simp] lemma pyInt_natCast (a : ℕ) : pyInt (a : ℚ) = a := by
  have : ((a : ℤ) : ℚ) = (a : ℚ) := by push_cast; rfl
  rw [← this, pyInt_intCast]

/-- Parity-consistent energies at or above the ground state exceed it by a
natural number. -/
lemma exists_excess (n : ℕ) (e : ℚ) (hp : parityOk n e) (hg : ground_state_energy n ≤ e) :
    ∃ x : ℕ, e = ground_state_energy n + x := by
  obtain ⟨m, hm⟩ : ∃ m : ℕ, n / 2 = m := ⟨n / 2, rfl⟩
  rcases hp with ⟨hn, hf⟩ | ⟨hn, hf⟩
  · have he : e = (⌊e⌋ : ℚ) := by
      have h0 := Int.floor_add_fract e
      rw [hf, add_zero] at h0
      exact h0.symm
    rw [gse_even n hn, hm] at hg ⊢
    have hfl : ((m ^ 2 : ℕ) : ℤ) ≤ ⌊e⌋ := by
      rw [Int.le_floor]
      exact_mod_cast hg
    refine ⟨(⌊e⌋ - (m ^ 2 : ℕ)).toNat, ?_⟩
    have hnn : ((⌊e⌋ - (m ^ 2 : ℕ)).toNat : ℤ) = ⌊e⌋ - (m ^ 2 : ℕ) :=
      Int.toNat_of_nonneg (by omega)
    have hq : (((⌊e⌋ - (m ^ 2 : ℕ)).toNat : ℕ) : ℚ) = (⌊e⌋ : ℚ) - ((m ^ 2 : ℕ) : ℚ) := by
      exact_mod_cast congrArg (fun z : ℤ => (z : ℚ)) hnn
    linarith [he, hq]
  · have he : e = (⌊e⌋ : ℚ) + 1 / 2 := by
      have h0 := Int.floor_add_fract e
      rw [hf] at h0
      linarith [h0]
    rw [gse_odd n hn, hm] at hg ⊢
    have hfl : ((m ^ 2 + m : ℕ) : ℤ) ≤ ⌊e⌋ := by
      rw [Int.le_floor]
      rw [he] at hg
      push_cast at hg ⊢
      linarith [hg]
    refine ⟨(⌊e⌋ - (m ^ 2 + m : ℕ)).toNat, ?_⟩
    have hnn : ((⌊e⌋ - (m ^ 2 + m : ℕ)).toNat : ℤ) = ⌊e⌋ - (m ^ 2 + m : ℕ) :=
      Int.toNat_of_nonneg (by omega)
    have hq : (((⌊e⌋ - (m ^ 2 + m : ℕ)).toNat : ℕ) : ℚ) = (⌊e⌋ : ℚ) - ((m ^ 2 + m : ℕ) : ℚ) := by
      exact_mod_cast congrArg (fun z : ℤ => (z : ℚ)) hnn
    linarith [he, hq]

/-!  ## Symbolic values of the normalizer outputs

For a parity-consistent `e = ground_state_energy n + x` with excess `x : ℕ`,
every quantity of the normalizer has a closed form in `n` and `x`. -/

lemma max_en_eq (n : ℕ) (e : ℚ) (x : ℕ) (hx : e = ground_state_energy n + x) :
    max_en n e = ((n / 2 + n % 2 + x : ℕ) : ℤ) := by
  unfold max_en
  have h1 : ((electron_states n).length : ℚ) + (e - ground_state_energy n)
      = (((electron_states n).length + x : ℕ) : ℚ) := by
    rw [hx]; push_cast; ring
  rw [h1, pyInt_natCast, states_length]

lemma maxLevel_eq (n : ℕ) (e : ℚ) (x : ℕ) (hx : e = ground_state_energy n + x) :
    maxLevel n e = n / 2 + n % 2 + x := by
  unfold maxLevel
  rw [max_en_eq n e x hx, Int.toNat_natCast]

lemma totalLen_eq (n : ℕ) (e : ℚ) (x : ℕ) (hx : e = ground_state_energy n + x) :
    totalLen n e = n / 2 + n % 2 + x := by
  unfold totalLen
  rw [states_length, max_en_eq n e x hx, Int.toNat_natCast]
  omega

lemma min_en_eq (n : ℕ) (e : ℚ) (x : ℕ) (hx : e = ground_state_energy n + x) :
    min_en n e = ((n / 2 - x : ℕ) : ℤ) := by
  have h1 : ((electron_states n).length : ℚ) - (e - ground_state_energy n)
      = ((((electron_states n).length : ℤ) - (x : ℤ) : ℤ) : ℚ) := by
    rw [hx]; push_cast; ring
  simp only [min_en]
  rw [h1, pyInt_intCast, states_length]
  rcases Nat.mod_two_eq_zero_or_one n with h | h <;>
    simp only [h, Nat.one_ne_zero, if_false, if_true, Nat.zero_ne_one, reduceIte] <;>
    split_ifs <;> push_cast <;> omega

lemma min_en_toNat (n : ℕ) (e : ℚ) (x : ℕ) (hx : e = ground_state_energy n + x) :
    (min_en n e).toNat = n / 2 - x := by
  rw [min_en_eq n e x hx, Int.toNat_natCast]

lemma resEnergy_eq (n : ℕ) (e : ℚ) (x : ℕ) (hx : e = ground_state_energy n + x) :
    resEnergy n e = energyListQ (n / 2 - x) (n / 2 + n % 2 + x - (n / 2 - x)) := by
  unfold resEnergy energyFull
  rw [totalLen_eq n e x hx, min_en_toNat n e x hx, energyListQ_drop, Nat.zero_add]

lemma updated_n_eq (n : ℕ) (e : ℚ) (x : ℕ) (hx : e = ground_state_energy n + x) :
    updated_n n e = (n : ℤ) - 2 * ((n / 2 - x : ℕ) : ℤ) := by
  unfold updated_n
  rw [min_en_eq n e x hx]
  ring

lemma updated_e_eq (n : ℕ) (e : ℚ) (x : ℕ) (hx : e = ground_state_energy n + x) :
    updated_e n e = e - (((n / 2 - x) * (n / 2 - x) : ℕ) : ℚ) := by
  unfold updated_e temp_energy
  by_cases h0 : min_en n e = 0
  · have hp : n / 2 - x = 0 := by
      have := min_en_eq n e x hx
      rw [h0] at this
      exact_mod_cast this.symm
    rw [if_pos h0, hp]
    simp [dotQQ, List.replicate]
  · rw [if_neg h0, min_en_toNat n e x hx]
    unfold energyFull
    rw [totalLen_eq n e x hx, energyListQ_take _ _ _ (by omega), dotQQ_replicate_two,
      energyListQ_sum]
    simp only [Nat.mul_zero, Nat.zero_add]

/-!  ## Bridge between the rational filter and the integer enumeration -/

lemma emittedTails_eq_enumP (n : ℕ) (e : ℚ) (p L : ℕ) (s₀ t₀ : ℤ)
    (hres : resEnergy n e = energyListQ p L)
    (hn : updated_n n e = s₀)
    (he : 2 * updated_e n e = (t₀ : ℚ)) :
    emittedTails n e = enumP L s₀ t₀ p := by
  rw [enumP_eq_enumU, enumU_eq_filter]
  unfold emittedTails
  rw [hres, energyListQ_length]
  apply List.filter_congr
  intro xs hxs
  obtain ⟨hlen, hcap⟩ := (mem_allLists L xs).1 hxs
  rw [decide_eq_decide, hn]
  constructor
  · rintro ⟨h1, h2⟩
    refine ⟨h1, ?_⟩
    rw [← hlen, dotQ_dE] at h2
    have hq : (dE p xs : ℚ) = (t₀ : ℚ) := by rw [← he]; linarith
    exact_mod_cast hq
  · rintro ⟨h1, h2⟩
    refine ⟨h1, ?_⟩
    rw [← hlen, dotQ_dE]
    have hq : (dE p xs : ℚ) = (t₀ : ℚ) := by exact_mod_cast h2
    rw [hq]
    linarith [he]

lemma configs_eq_enumP (n : ℕ) (e : ℚ) (p L : ℕ) (s₀ t₀ : ℤ)
    (hres : resEnergy n e = energyListQ p L)
    (hn : updated_n n e = s₀)
    (he : 2 * updated_e n e = (t₀ : ℚ))
    (hmin : (min_en n e).toNat = p) :
    configs n e = (enumP L s₀ t₀ p).map (fun i => List.replicate p 2 ++ i) := by
  unfold configs
  rw [emittedTails_eq_enumP n e p L s₀ t₀ hres hn he, hmin]

/-!  ## The frozen prefix is fully occupied in every valid configuration -/

lemma packed_helper (m : ℕ) : ∀ r, r ≤ 1 →
    packedList (2 * m + r) (m + r) = List.replicate m 2 ++ (if r = 0 then [] else [1]) := by
  induction m with
  | zero =>
    intro r hr
    interval_cases r
    · rfl
    · rfl
  | succ m ih =>
    intro r hr
    have h1 : 2 * (m + 1) + r = (2 * m + r) + 2 := by ring
    have h2 : m + 1 + r = (m + r) + 1 := by ring
    rw [h1, h2]
    show min (2 * m + r + 2) 2 :: packedList (2 * m + r + 2 - min (2 * m + r + 2) 2) (m + r)
        = List.replicate (m + 1) 2 ++ _
    have h3 : min (2 * m + r + 2) 2 = 2 := by omega
    rw [h3]
    have h4 : 2 * m + r + 2 - 2 = 2 * m + r := by omega
    rw [h4, ih r hr]
    rfl

lemma states_eq_packed (n : ℕ) : electron_states n = packedList n (n / 2 + n % 2) := by
  have hr : n % 2 ≤ 1 := by omega
  have key := packed_helper (n / 2) (n % 2) hr
  rw [show 2 * (n / 2) + n % 2 = n from by omega] at key
  unfold electron_states
  exact key.symm

lemma dE_packed_full (n M : ℕ) (hM : n / 2 + n % 2 ≤ M) :
    dE 0 (packedList n M) = dE 0 (electron_states n) := by
  have h1 : M = (n / 2 + n % 2) + (M - (n / 2 + n % 2)) := by omega
  rw [h1, packedList_append]
  have h2 : n - 2 * (n / 2 + n % 2) = 0 := by omega
  rw [h2, packedList_zero, dE_append, dE_replicate_zero, states_eq_packed]
  simp

/-- In every occupancy sequence over `{0,1,2}` of the full ladder length with
particle count `n` and total energy `e = ground_state_energy n + x`, the first
`n/2 - x` levels (the frozen prefix) are fully occupied. -/
lemma frozen_take (n : ℕ) (e : ℚ) (x : ℕ) (hx : e = ground_state_energy n + x)
    (xs : List ℕ) (hlen : xs.length = n / 2 + n % 2 + x) (hcap : ∀ a ∈ xs, a ≤ 2)
    (hsum : xs.sum = n) (hE : dotQ xs (energyListQ 0 xs.length) = e) :
    xs.take (n / 2 - x) = List.replicate (n / 2 - x) 2 := by
  have hdE : dE 0 xs = dE 0 (electron_states n) + 2 * x := by
    rw [dotQ_dE] at hE
    have h2e : (dE 0 xs : ℚ) = 2 * e := by linarith
    rw [hx, gse_eq_dE] at h2e
    have hq : (dE 0 xs : ℚ) = ((dE 0 (electron_states n) + 2 * x : ℕ) : ℚ) := by
      push_cast
      linarith
    exact_mod_cast hq
  have hpacked : dE 0 (packedList n xs.length) = dE 0 (electron_states n) :=
    dE_packed_full n xs.length (by omega)
  have hlen_take : (xs.take (n / 2 - x)).length = n / 2 - x := by
    rw [List.length_take]
    omega
  have hrep : xs.take (n / 2 - x) = List.replicate (xs.take (n / 2 - x)).length 2 := by
    apply List.eq_replicate_of_mem
    intro b hb
    obtain ⟨i, hi, hib⟩ := List.getElem_of_mem hb
    have hip : i < n / 2 - x := by
      have h0 := hi
      rw [hlen_take] at h0
      exact h0
    have hixs : i < xs.length := by omega
    have hgets : (xs.take (n / 2 - x))[i] = xs[i] := List.getElem_take xs
    by_contra hb2
    have hble : xs[i] ≤ 1 := by
      have h2 := hcap (xs[i]) (List.getElem_mem hixs)
      have hbx : b = xs[i] := by rw [← hib, hgets]
      omega
    have hlow := dE_lower_of_small xs i hcap hixs hble
    rw [hsum, hpacked, hdE] at hlow
    omega
  rw [hrep, hlen_take]

/-!  ## Membership characterization of the emitted configuration list -/

lemma energyListQ_append (a : ℕ) : ∀ (k b : ℕ),
    energyListQ k (a + b) = energyListQ k a ++ energyListQ (k + a) b := by
  induction a with
  | zero => intro k b; simp [energyListQ]
  | succ a ih =>
    intro k b
    have h1 : a + 1 + b = (a + b) + 1 := by ring
    have h2 : k + (a + 1) = (k + 1) + a := by ring
    rw [h1, h2]
    show ((k : ℚ) + 1 / 2) :: energyListQ (k + 1) (a + b) = _
    rw [ih (k + 1) b]
    rfl

lemma dotQ_append (a b : List ℕ) (ea eb : List ℚ) (h : a.length = ea.length) :
    dotQ (a ++ b) (ea ++ eb) = dotQ a ea + dotQ b eb := by
  induction a generalizing ea with
  | nil =>
    have h0 : ea = [] := List.length_eq_zero.1 h.symm
    simp [h0, dotQ]
  | cons x xs ih =>
    cases ea with
    | nil => simp at h
    | cons q qs =>
      rw [List.cons_append, List.cons_append]
      have hd : dotQ (x :: (xs ++ b)) (q :: (qs ++ eb))
          = (x : ℚ) * q + dotQ (xs ++ b) (qs ++ eb) := rfl
      have hd2 : dotQ (x :: xs) (q :: qs) = (x : ℚ) * q + dotQ xs qs := rfl
      have hlen : xs.length = qs.length := by
        simpa using h
      rw [hd, hd2, ih qs hlen]
      ring

lemma dotQ_replicate_two (p k : ℕ) :
    dotQ (List.replicate p 2) (energyListQ k p) = ((p * (2 * k + p) : ℕ) : ℚ) := by
  have h1 : p = (List.replicate p 2).length := by simp
  have h2 := dotQ_dE (List.replicate p 2) k
  rw [List.length_replicate] at h2
  rw [h2, dE_replicate_two]
  push_cast
  ring

/-- Every list the program emits (for a parity-consistent energy at or above
the ground state) is exactly an occupancy sequence over `{0,1,2}` of length
`maxLevel` with particle count `n` and total energy `e`, and conversely. -/
lemma mem_configs_iff (n : ℕ) (e : ℚ) (x : ℕ) (hx : e = ground_state_energy n + x)
    (xs : List ℕ) :
    xs ∈ configs n e ↔
      (xs.length = maxLevel n e ∧ (∀ a ∈ xs, a ≤ 2) ∧ xs.sum = n
        ∧ dotQ xs (energyListQ 0 (maxLevel n e)) = e) := by
  have hM := maxLevel_eq n e x hx
  have hp := min_en_toNat n e x hx
  have hres := resEnergy_eq n e x hx
  have hun := updated_n_eq n e x hx
  have hue := updated_e_eq n e x hx
  have hpM : n / 2 - x ≤ n / 2 + n % 2 + x := by omega
  have hsplit : energyListQ 0 (n / 2 + n % 2 + x)
      = energyListQ 0 (n / 2 - x) ++ energyListQ (n / 2 - x) (n / 2 + n % 2 + x - (n / 2 - x)) := by
    have h1 : n / 2 + n % 2 + x = (n / 2 - x) + (n / 2 + n % 2 + x - (n / 2 - x)) := by omega
    rw [h1, energyListQ_append]
    have h2 : (n / 2 - x) + (n / 2 + n % 2 + x - (n / 2 - x)) = n / 2 + n % 2 + x := by omega
    rw [h2, Nat.zero_add]
  constructor
  · intro hmem
    unfold configs at hmem
    obtain ⟨t, ht, rfl⟩ := List.mem_map.1 hmem
    unfold emittedTails at ht
    obtain ⟨htl, htp⟩ := List.mem_filter.1 ht
    obtain ⟨htlen, htcap⟩ := (mem_allLists _ t).1 htl
    rw [decide_eq_true_eq] at htp
    obtain ⟨htsum, htE⟩ := htp
    rw [hres, energyListQ_length] at htlen
    rw [hun] at htsum
    rw [hres] at htE
    rw [hue] at htE
    have htsum2 : t.sum = n - 2 * (n / 2 - x) := by omega
    have h2p : 2 * (n / 2 - x) ≤ n := by omega
    rw [hp]
    constructor
    · rw [List.length_append, List.length_replicate, htlen, hM]
      omega
    refine ⟨?_, ?_, ?_⟩
    · intro a ha
      rcases List.mem_append.1 ha with h | h
      · have := List.eq_of_mem_replicate h
        omega
      · exact htcap a h
    · rw [List.sum_append, List.sum_replicate, smul_eq_mul, htsum2]
      omega
    · rw [hM, hsplit, dotQ_append _ _ _ _ (by simp), dotQ_replicate_two, htE]
      push_cast
      ring
  · rintro ⟨hlen, hcap, hsum, hE⟩
    rw [hM] at hlen
    have hfrozen : xs.take (n / 2 - x) = List.replicate (n / 2 - x) 2 := by
      apply frozen_take n e x hx xs hlen hcap hsum
      rw [hlen, ← hM]
      exact hE
    have hxs_split : xs = List.replicate (n / 2 - x) 2 ++ xs.drop (n / 2 - x) := by
      rw [← hfrozen, List.take_append_drop]
    set t := xs.drop (n / 2 - x) with htdef
    have htlen : t.length = n / 2 + n % 2 + x - (n / 2 - x) := by
      rw [htdef, List.length_drop, hlen]
    have htcap : ∀ a ∈ t, a ≤ 2 := fun a ha => hcap a (List.drop_subset _ xs ha)
    have htsum : t.sum = n - 2 * (n / 2 - x) := by
      have h1 := take_sum_add_drop_sum xs (n / 2 - x)
      rw [hfrozen, List.sum_replicate, smul_eq_mul, hsum, ← htdef] at h1
      omega
    have htE : dotQ t (resEnergy n e) = updated_e n e := by
      have hE2 : dotQ xs (energyListQ 0 (n / 2 + n % 2 + x)) = e := by
        rw [← hM]
        exact hE
      rw [hxs_split, hsplit, dotQ_append _ _ _ _ (by simp), dotQ_replicate_two] at hE2
      rw [hres, hue]
      push_cast at hE2 ⊢
      linarith
    unfold configs emittedTails
    rw [List.mem_map]
    refine ⟨t, ?_, by rw [hp, ← hxs_split]⟩
    rw [List.mem_filter]
    constructor
    · rw [mem_allLists]
      rw [hres, energyListQ_length]
      exact ⟨htlen, htcap⟩
    · rw [decide_eq_true_eq]
      refine ⟨?_, htE⟩
      rw [hun]
      omega

/-!  ## Emission order: strict lexicographic sortedness, hence no duplicates -/

lemma not_lex_self (l : List ℕ) : ¬ List.Lex (· < ·) l l := by
  induction l with
  | nil => intro h; cases h
  | cons a t ih =>
    intro h
    cases h with
    | cons h => exact ih h
    | rel h => exact lt_irrefl a h

lemma lex_asymm {l₁ l₂ : List ℕ} (h1 : List.Lex (· < ·) l₁ l₂) :
    ¬ List.Lex (· < ·) l₂ l₁ := by
  induction h1 with
  | nil =>
    intro h2
    cases h2
  | @cons a t₁ t₂ h ih =>
    intro h2
    cases h2 with
    | cons h2 => exact ih h2
    | rel h2 => exact lt_irrefl a h2
  | @rel a t₁ b t₂ h =>
    intro h2
    cases h2 with
    | cons h2 => exact lt_irrefl a h
    | rel h2 => exact lt_asymm h h2

instance : IsAntisymm (List ℕ) (List.Lex (· < ·)) :=
  ⟨fun _ _ h1 h2 => absurd h2 (lex_asymm h1)⟩

lemma lex_append_same (pre : List ℕ) {t₁ t₂ : List ℕ} (h : List.Lex (· < ·) t₁ t₂) :
    List.Lex (· < ·) (pre ++ t₁) (pre ++ t₂) := by
  induction pre with
  | nil => exact h
  | cons a pre ih => exact List.Lex.cons ih

lemma allLists_sorted (L : ℕ) : (allLists L).Sorted (List.Lex (· < ·)) := by
  induction L with
  | zero => simp [allLists]
  | succ L ih =>
    have hmap : ∀ c : ℕ, ((allLists L).map (c :: ·)).Sorted (List.Lex (· < ·)) := by
      intro c
      exact List.Pairwise.map _ (fun _ _ h => List.Lex.cons h) ih
    have hcross : ∀ c₁ c₂ : ℕ, c₁ < c₂ →
        ∀ a ∈ (allLists L).map (c₁ :: ·), ∀ b ∈ (allLists L).map (c₂ :: ·),
          List.Lex (· < ·) a b := by
      intro c₁ c₂ hc a ha b hb
      obtain ⟨u, _, rfl⟩ := List.mem_map.1 ha
      obtain ⟨v, _, rfl⟩ := List.mem_map.1 hb
      exact List.Lex.rel hc
    unfold allLists
    rw [List.Sorted, List.pairwise_append, List.pairwise_append]
    refine ⟨⟨hmap 0, hmap 1, hcross 0 1 (by omega)⟩, hmap 2, ?_⟩
    intro a ha b hb
    rcases List.mem_append.1 ha with h | h
    · exact hcross 0 2 (by omega) a h b hb
    · exact hcross 1 2 (by omega) a h b hb

lemma emittedTails_sorted (n : ℕ) (e : ℚ) :
    (emittedTails n e).Sorted (List.Lex (· < ·)) :=
  List.Pairwise.sublist (List.filter_sublist _) (allLists_sorted _)

lemma configs_sorted (n : ℕ) (e : ℚ) : (configs n e).Sorted (List.Lex (· < ·)) := by
  unfold configs
  exact List.Pairwise.map _ (fun _ _ h => lex_append_same _ h) (emittedTails_sorted n e)

lemma sorted_lex_nodup {l : List (List ℕ)} (h : l.Sorted (List.Lex (· < ·))) : l.Nodup :=
  h.imp (fun hab => fun heq => not_lex_self _ (heq ▸ hab))

lemma fullEnumeration_sorted (n : ℕ) (e : ℚ) :
    (fullEnumeration n e).Sorted (List.Lex (· < ·)) :=
  List.Pairwise.sublist (List.filter_sublist _) (allLists_sorted _)

lemma mem_fullEnumeration_iff (n : ℕ) (e : ℚ) (xs : List ℕ) :
    xs ∈ fullEnumeration n e ↔
      (xs.length = maxLevel n e ∧ (∀ a ∈ xs, a ≤ 2) ∧ xs.sum = n
        ∧ dotQ xs (energyListQ 0 (maxLevel n e)) = e) := by
  unfold fullEnumeration
  rw [List.mem_filter, mem_allLists, decide_eq_true_eq]
  constructor
  · rintro ⟨⟨h1, h2⟩, h3, h4⟩
    exact ⟨h1, h2, by exact_mod_cast h3, h4⟩
  · rintro ⟨h1, h2, h3, h4⟩
    exact ⟨⟨h1, h2⟩, by exact_mod_cast h3, h4⟩

/-- The residual enumeration with the frozen prefix prepended produces exactly
the full enumeration over all `maxLevel` levels, in the same order. -/
lemma fullEnumeration_eq_configs (n : ℕ) (e : ℚ) (x : ℕ)
    (hx : e = ground_state_energy n + x) :
    fullEnumeration n e = configs n e := by
  apply List.eq_of_perm_of_sorted ?_ (fullEnumeration_sorted n e) (configs_sorted n e)
  rw [List.perm_ext_iff_of_nodup (sorted_lex_nodup (fullEnumeration_sorted n e))
    (sorted_lex_nodup (configs_sorted n e))]
  intro xs
  rw [mem_fullEnumeration_iff, mem_configs_iff n e x hx]

/-!  ## Shared concrete facts for witnesses -/

lemma parityOk_20_106 : parityOk 20 106 :=
  Or.inl ⟨by norm_num, by norm_num [Int.fract]⟩

lemma gse20 : ground_state_energy 20 = 100 := by
  rw [gse_even 20 (by norm_num)]
  norm_num

lemma gse20_le : ground_state_energy 20 ≤ 106 := by
  rw [gse20]
  norm_num

/-!  ## The claims -/

/-- C1: for every parity-consistent input `(n, e)` with `e` at or above the
ground-state energy, every configuration the enumerator emits has particle sum
exactly `n` and energy-weighted sum `Σ c[i]*(i + 0.5)` exactly `e`. -/
theorem claim_C1_conservation (n : ℕ) (e : ℚ) (hp : parityOk n e)
    (hg : ground_state_energy n ≤ e) :
    ∀ c ∈ configs n e, c.sum = n ∧ dotQ c (energyListQ 0 c.length) = e := by
  obtain ⟨x, hx⟩ := exists_excess n e hp hg
  intro c hc
  obtain ⟨hlen, _, hsum, hE⟩ := (mem_configs_iff n e x hx c).1 hc
  refine ⟨hsum, ?_⟩
  rw [hlen]
  exact hE

theorem claim_C1_conservation_witness :
    parityOk 20 106 ∧ ground_state_energy 20 ≤ 106
      ∧ ∀ c ∈ configs 20 106, c.sum = 20 ∧ dotQ c (energyListQ 0 c.length) = 106 :=
  ⟨parityOk_20_106, gse20_le, claim_C1_conservation 20 106 parityOk_20_106 gse20_le⟩

/-- C2: for every valid input, the emitted list is exactly the set of all
occupancy sequences over `{0,1,2}` of length `maxLevel` with element-sum `n`
and energy-weighted sum `e` (no omission), it has no duplicates, and the
reported count equals the number of emitted configurations. -/
theorem claim_C2_exactness (n : ℕ) (e : ℚ) (hp : parityOk n e)
    (hg : ground_state_energy n ≤ e) :
    (∀ xs, xs ∈ configs n e ↔
      (xs.length = maxLevel n e ∧ (∀ a ∈ xs, a ≤ 2) ∧ xs.sum = n
        ∧ dotQ xs (energyListQ 0 (maxLevel n e)) = e))
    ∧ (configs n e).Nodup ∧ count n e = (configs n e).length := by
  obtain ⟨x, hx⟩ := exists_excess n e hp hg
  refine ⟨fun xs => mem_configs_iff n e x hx xs, sorted_lex_nodup (configs_sorted n e), ?_⟩
  simp [count, configs]

theorem claim_C2_exactness_witness :
    parityOk 20 106 ∧ ground_state_energy 20 ≤ 106
      ∧ ((∀ xs, xs ∈ configs 20 106 ↔
          (xs.length = maxLevel 20 106 ∧ (∀ a ∈ xs, a ≤ 2) ∧ xs.sum = 20
            ∧ dotQ xs (energyListQ 0 (maxLevel 20 106)) = 106))
        ∧ (configs 20 106).Nodup ∧ count 20 106 = (configs 20 106).length) :=
  ⟨parityOk_20_106, gse20_le, claim_C2_exactness 20 106 parityOk_20_106 gse20_le⟩

/-- C3: for every valid input, enumerating only the residual levels with the
frozen prefix fixed at occupancy 2 yields exactly the same configuration list
as the full enumeration over all `maxLevel` levels; equivalently, in every
occupancy sequence of length `maxLevel` with particle count `n` and total
energy `e`, the first `min_en` levels all hold occupancy 2. -/
theorem claim_C3_refinement (n : ℕ) (e : ℚ) (hp : parityOk n e)
    (hg : ground_state_energy n ≤ e) :
    fullEnumeration n e = configs n e
    ∧ ∀ xs, xs.length = maxLevel n e → (∀ a ∈ xs, a ≤ 2) → xs.sum = n
        → dotQ xs (energyListQ 0 (maxLevel n e)) = e
        → xs.take (min_en n e).toNat = List.replicate (min_en n e).toNat 2 := by
  obtain ⟨x, hx⟩ := exists_excess n e hp hg
  refine ⟨fullEnumeration_eq_configs n e x hx, ?_⟩
  intro xs h1 h2 h3 h4
  rw [min_en_toNat n e x hx]
  apply frozen_take n e x hx xs (by rw [h1, maxLevel_eq n e x hx]) h2 h3
  rw [h1]
  exact h4

theorem claim_C3_refinement_witness :
    parityOk 20 106 ∧ ground_state_energy 20 ≤ 106
      ∧ (fullEnumeration 20 106 = configs 20 106
        ∧ ∀ xs, xs.length = maxLevel 20 106 → (∀ a ∈ xs, a ≤ 2) → xs.sum = 20
            → dotQ xs (energyListQ 0 (maxLevel 20 106)) = 106
            → xs.take (min_en 20 106).toNat = List.replicate (min_en 20 106).toNat 2) :=
  ⟨parityOk_20_106, gse20_le, claim_C3_refinement 20 106 parityOk_20_106 gse20_le⟩

/-- C4: the normalizer signals the invalid-input error (and returns no reduced
problem) exactly when the parity of `e` is inconsistent with `n` (`e` not an
integer for even `n`, or the fractional part of `e` not `1/2` for odd `n`), or
`e` is strictly below the ground-state energy. -/
theorem claim_C4_invalid_iff (n : ℕ) (e : ℚ) :
    normalize n e = Except.error () ↔
      ((n % 2 = 0 ∧ Int.fract e ≠ 0) ∨ (n % 2 = 1 ∧ Int.fract e ≠ 1 / 2)
        ∨ e < ground_state_energy n) := by
  have hiff : invalidValuesSignaled n e ↔
      ((n % 2 = 0 ∧ Int.fract e ≠ 0) ∨ (n % 2 = 1 ∧ Int.fract e ≠ 1 / 2)
        ∨ e < ground_state_energy n) := by
    unfold invalidValuesSignaled parityOk
    rcases Nat.mod_two_eq_zero_or_one n with hr | hr <;> simp [hr]
  unfold normalize
  split_ifs with h
  · exact iff_of_true rfl (hiff.1 h)
  · constructor
    · intro hc
      simp at hc
    · intro hc
      exact absurd (hiff.2 hc) h

/-- C6: for every input, the residual tails are emitted in strictly increasing
lexicographic order over `{0,1,2}` (position 0 slowest), hence the emitted
configuration list is ordered by the lexicographic order of its residual
tails; the output is a pure function of `(n, e)`, so repeated runs coincide. -/
theorem claim_C6_lex_order (n : ℕ) (e : ℚ) :
    (emittedTails n e).Sorted (List.Lex (· < ·))
    ∧ (configs n e).Pairwise (fun a b =>
        List.Lex (· < ·) (a.drop (min_en n e).toNat) (b.drop (min_en n e).toNat)) := by
  refine ⟨emittedTails_sorted n e, ?_⟩
  unfold configs
  apply List.Pairwise.map
  · intro t₁ t₂ h
    have hd : ∀ t : List ℕ,
        (List.replicate (min_en n e).toNat 2 ++ t).drop (min_en n e).toNat = t := by
      intro t
      have h := List.drop_left (List.replicate (min_en n e).toNat (2 : ℕ)) t
      rwa [List.length_replicate] at h
    rw [hd, hd]
    exact h
  · exact emittedTails_sorted n e

/-- C7: (spec-modelled) when the residual level count exceeds the caller's
safety bound, the enumerator signals the search-space error carrying the
computed count `L`, and otherwise it returns the enumeration result. -/
theorem claim_C7_bound (n : ℕ) (e : ℚ) (bound : ℕ) :
    (enumerateBounded n e bound = Except.error ((resEnergy n e).length)
        ↔ bound < (resEnergy n e).length)
    ∧ (enumerateBounded n e bound = Except.ok (configs n e)
        ↔ ¬ bound < (resEnergy n e).length) := by
  unfold enumerateBounded
  split_ifs with h <;> constructor <;> simp [h]

/-- C10: for every valid input the normalizer outputs satisfy the enumerator
preconditions: `0 ≤ min_en ≤ ladderLength ≤ max_en`, the residual count is
`max_en - min_en`, the residual target sum lies in `[0, 2L]`, the residual
target energy is nonnegative, and when `min_en = 0` the sentinel `[0]` prefix
leaves both targets unchanged. -/
theorem claim_C10_preconditions (n : ℕ) (e : ℚ) (hp : parityOk n e)
    (hg : ground_state_energy n ≤ e) :
    0 ≤ min_en n e
    ∧ min_en n e ≤ ((electron_states n).length : ℤ)
    ∧ ((electron_states n).length : ℤ) ≤ max_en n e
    ∧ ((resEnergy n e).length : ℤ) = max_en n e - min_en n e
    ∧ 0 ≤ updated_n n e
    ∧ updated_n n e ≤ 2 * ((resEnergy n e).length : ℤ)
    ∧ 0 ≤ updated_e n e
    ∧ (min_en n e = 0 → temp_energy n e = [0] ∧ updated_n n e = (n : ℤ) ∧ updated_e n e = e) := by
  obtain ⟨x, hx⟩ := exists_excess n e hp hg
  have h1 := min_en_eq n e x hx
  have h2 := max_en_eq n e x hx
  have h3 := resEnergy_eq n e x hx
  have h4 := updated_n_eq n e x hx
  have h5 := updated_e_eq n e x hx
  have hsl := states_length n
  have hLres : (resEnergy n e).length = (n / 2 + n % 2 + x) - (n / 2 - x) := by
    rw [h3, energyListQ_length]
  have hp0 : min_en n e = 0 → n / 2 - x = 0 := by
    intro h0
    rw [h0] at h1
    exact_mod_cast h1.symm
  refine ⟨?_, ?_, ?_, ?_, ?_, ?_, ?_, ?_⟩
  · rw [h1]; omega
  · rw [h1, hsl]; omega
  · rw [h2, hsl]; omega
  · rw [hLres, h1, h2]; omega
  · rw [h4]; omega
  · rw [h4, hLres]; omega
  · rw [h5]
    have hle : n / 2 - x ≤ n / 2 := Nat.sub_le _ _
    have hmul : (n / 2 - x) * (n / 2 - x) ≤ (n / 2) ^ 2 := by
      rw [pow_two]
      exact Nat.mul_le_mul hle hle
    have hq : (((n / 2 - x) * (n / 2 - x) : ℕ) : ℚ) ≤ ground_state_energy n := by
      rcases Nat.mod_two_eq_zero_or_one n with hr | hr
      · rw [gse_even n hr]
        exact_mod_cast hmul
      · rw [gse_odd n hr]
        have hq2 : (((n / 2 - x) * (n / 2 - x) : ℕ) : ℚ) ≤ (((n / 2) ^ 2 + n / 2 : ℕ) : ℚ) := by
          exact_mod_cast le_trans hmul (Nat.le_add_right _ _)
        linarith
    linarith
  · intro h0
    refine ⟨?_, ?_, ?_⟩
    · unfold temp_energy
      rw [if_pos h0]
    · rw [h4, hp0 h0]
      push_cast
      ring
    · rw [h5, hp0 h0]
      norm_num

theorem claim_C10_preconditions_witness :
    parityOk 20 106 ∧ ground_state_energy 20 ≤ 106
      ∧ (0 ≤ min_en 20 106
        ∧ min_en 20 106 ≤ ((electron_states 20).length : ℤ)
        ∧ ((electron_states 20).length : ℤ) ≤ max_en 20 106
        ∧ ((resEnergy 20 106).length : ℤ) = max_en 20 106 - min_en 20 106
        ∧ 0 ≤ updated_n 20 106
        ∧ updated_n 20 106 ≤ 2 * ((resEnergy 20 106).length : ℤ)
        ∧ 0 ≤ updated_e 20 106
        ∧ (min_en 20 106 = 0 →
            temp_energy 20 106 = [0] ∧ updated_n 20 106 = (20 : ℤ) ∧ updated_e 20 106 = 106)) :=
  ⟨parityOk_20_106, gse20_le, claim_C10_preconditions 20 106 parityOk_20_106 gse20_le⟩

/-!  ## Concrete evaluation helpers -/

lemma filter_allLists_zero_pos {p : List ℕ → Bool} (h : p [] = true) :
    (allLists 0).filter p = [[]] := by
  simp [allLists, List.filter, h]

lemma filter_allLists_one {p : List ℕ → Bool} (h0 : p [0] = false) (h1 : p [1] = true)
    (h2 : p [2] = false) : (allLists 1).filter p = [[1]] := by
  have ha : allLists 1 = [[0], [1], [2]] := rfl
  rw [ha]
  simp [List.filter, h0, h1, h2]

/-- C5: for every particle count `n`, running the program at exactly the
ground-state energy produces exactly one configuration, the ground state
itself (`n/2` levels at occupancy 2, plus one level at occupancy 1 for odd
`n`), which is therefore always included. -/
theorem claim_C5_ground_state (n : ℕ) :
    configs n (ground_state_energy n) = [electron_states n] := by
  have hx : ground_state_energy n = ground_state_energy n + ((0 : ℕ) : ℚ) := by
    norm_num
  have hmin : (min_en n (ground_state_energy n)).toNat = n / 2 := by
    rw [min_en_toNat n _ 0 hx]
    omega
  have hun : updated_n n (ground_state_energy n) = (n : ℤ) - 2 * ((n / 2 : ℕ) : ℤ) := by
    have h := updated_n_eq n _ 0 hx
    rwa [Nat.sub_zero] at h
  have hue : updated_e n (ground_state_energy n)
      = ground_state_energy n - ((n / 2 * (n / 2) : ℕ) : ℚ) := by
    have h := updated_e_eq n _ 0 hx
    rwa [Nat.sub_zero] at h
  rcases Nat.mod_two_eq_zero_or_one n with hr | hr
  · -- even case: no residual level remains
    have hres : resEnergy n (ground_state_energy n) = energyListQ (n / 2) 0 := by
      rw [resEnergy_eq n _ 0 hx]
      congr 1
      omega
    have hL : (resEnergy n (ground_state_energy n)).length = 0 := by
      rw [hres, energyListQ_length]
    have hpred : ((([] : List ℕ).sum : ℤ) = updated_n n (ground_state_energy n)
        ∧ dotQ [] (resEnergy n (ground_state_energy n))
            = updated_e n (ground_state_energy n)) := by
      constructor
      · rw [hun]
        simp
        omega
      · have hval : updated_e n (ground_state_energy n) = 0 := by
          rw [hue, gse_even n hr]
          push_cast
          ring
        rw [hval]
        simp [dotQ]
    unfold configs emittedTails
    rw [hL, filter_allLists_zero_pos (decide_eq_true hpred), hmin]
    simp [electron_states, hr]
  · -- odd case: one residual level holding the unpaired electron
    have hres : resEnergy n (ground_state_energy n) = energyListQ (n / 2) 1 := by
      rw [resEnergy_eq n _ 0 hx]
      congr 1
      omega
    have hL : (resEnergy n (ground_state_energy n)).length = 1 := by
      rw [hres, energyListQ_length]
    have hue2 : updated_e n (ground_state_energy n) = ((n / 2 : ℕ) : ℚ) + 1 / 2 := by
      rw [hue, gse_odd n hr]
      push_cast
      ring
    have hun2 : updated_n n (ground_state_energy n) = 1 := by
      rw [hun]
      omega
    have hdot : ∀ c : ℕ, dotQ [c] (resEnergy n (ground_state_energy n))
        = (c : ℚ) * (((n / 2 : ℕ) : ℚ) + 1 / 2) := by
      intro c
      rw [hres]
      show (c : ℚ) * (((n / 2 : ℕ) : ℚ) + 1 / 2) + dotQ [] [] = _
      simp [dotQ]
    have hp0 : ¬((([0] : List ℕ).sum : ℤ) = updated_n n (ground_state_energy n)
        ∧ dotQ [0] (resEnergy n (ground_state_energy n))
            = updated_e n (ground_state_energy n)) := by
      rintro ⟨h, _⟩
      rw [hun2] at h
      simp at h
    have hp1 : ((([1] : List ℕ).sum : ℤ) = updated_n n (ground_state_energy n)
        ∧ dotQ [1] (resEnergy n (ground_state_energy n))
            = updated_e n (ground_state_energy n)) := by
      constructor
      · rw [hun2]
        simp
      · rw [hdot 1, hue2]
        push_cast
        ring
    have hp2 : ¬((([2] : List ℕ).sum : ℤ) = updated_n n (ground_state_energy n)
        ∧ dotQ [2] (resEnergy n (ground_state_energy n))
            = updated_e n (ground_state_energy n)) := by
      rintro ⟨h, _⟩
      rw [hun2] at h
      simp at h
    unfold configs emittedTails
    rw [hL, filter_allLists_one (decide_eq_false hp0) (decide_eq_true hp1)
      (decide_eq_false hp2), hmin]
    simp [electron_states, hr]

lemma filter_allLists_zero_neg {p : List ℕ → Bool} (h : p [] = false) :
    (allLists 0).filter p = [] := by
  simp [allLists, List.filter, h]

/-- The complete output of the program at `n = 20`, `e = 106`: the 24
configurations listed by the notebook, in emission order. -/
lemma configs_20_106 : configs 20 106 = [[2, 2, 2, 2, 1, 2, 2, 2, 2, 2, 1, 0, 0, 0, 0, 0],
    [2, 2, 2, 2, 2, 1, 2, 2, 2, 1, 2, 0, 0, 0, 0, 0],
    [2, 2, 2, 2, 2, 1, 2, 2, 2, 2, 0, 1, 0, 0, 0, 0],
    [2, 2, 2, 2, 2, 2, 1, 2, 1, 2, 2, 0, 0, 0, 0, 0],
    [2, 2, 2, 2, 2, 2, 1, 2, 2, 1, 1, 1, 0, 0, 0, 0],
    [2, 2, 2, 2, 2, 2, 1, 2, 2, 2, 0, 0, 1, 0, 0, 0],
    [2, 2, 2, 2, 2, 2, 2, 0, 2, 2, 2, 0, 0, 0, 0, 0],
    [2, 2, 2, 2, 2, 2, 2, 1, 1, 2, 1, 1, 0, 0, 0, 0],
    [2, 2, 2, 2, 2, 2, 2, 1, 2, 0, 2, 1, 0, 0, 0, 0],
    [2, 2, 2, 2, 2, 2, 2, 1, 2, 1, 0, 2, 0, 0, 0, 0],
    [2, 2, 2, 2, 2, 2, 2, 1, 2, 1, 1, 0, 1, 0, 0, 0],
    [2, 2, 2, 2, 2, 2, 2, 1, 2, 2, 0, 0, 0, 1, 0, 0],
    [2, 2, 2, 2, 2, 2, 2, 2, 0, 1, 2, 1, 0, 0, 0, 0],
    [2, 2, 2, 2, 2, 2, 2, 2, 0, 2, 0, 2, 0, 0, 0, 0],
    [2, 2, 2, 2, 2, 2, 2, 2, 0, 2, 1, 0, 1, 0, 0, 0],
    [2, 2, 2, 2, 2, 2, 2, 2, 1, 0, 1, 2, 0, 0, 0, 0],
    [2, 2, 2, 2, 2, 2, 2, 2, 1, 0, 2, 0, 1, 0, 0, 0],
    [2, 2, 2, 2, 2, 2, 2, 2, 1, 1, 0, 1, 1, 0, 0, 0],
    [2, 2, 2, 2, 2, 2, 2, 2, 1, 1, 1, 0, 0, 1, 0, 0],
    [2, 2, 2, 2, 2, 2, 2, 2, 1, 2, 0, 0, 0, 0, 1, 0],
    [2, 2, 2, 2, 2, 2, 2, 2, 2, 0, 0, 0, 2, 0, 0, 0],
    [2, 2, 2, 2, 2, 2, 2, 2, 2, 0, 0, 1, 0, 1, 0, 0],
    [2, 2, 2, 2, 2, 2, 2, 2, 2, 0, 1, 0, 0, 0, 1, 0],
    [2, 2, 2, 2, 2, 2, 2, 2, 2, 1, 0, 0, 0, 0, 0, 1]] := by
  have hx : (106 : ℚ) = ground_state_energy 20 + ((6 : ℕ) : ℚ) := by
    rw [gse20]
    norm_num
  have hres : resEnergy 20 106 = energyListQ 4 12 := by
    have h := resEnergy_eq 20 106 6 hx
    norm_num at h
    exact h
  have hn : updated_n 20 106 = 12 := by
    rw [updated_n_eq 20 106 6 hx]
    norm_num
  have he : 2 * updated_e 20 106 = ((180 : ℤ) : ℚ) := by
    rw [updated_e_eq 20 106 6 hx]
    norm_num
  have hmin : (min_en 20 106).toNat = 4 := by
    rw [min_en_toNat 20 106 6 hx]
  rw [configs_eq_enumP 20 106 4 12 12 180 hres hn he hmin]
  decide

/-- C8 (counterexample): at `n = 20`, `e = 106` the first emitted
configuration is not `2,2,2,2` followed by the residual pattern
`2 1 2 2 2 2 2 1 0 0 0 0` claimed by the spec (that sequence does not even
carry 20 particles). -/
theorem claim_C8_counterexample :
    ¬ (configs 20 106).head? = some ([2, 2, 2, 2] ++ [2, 1, 2, 2, 2, 2, 2, 1, 0, 0, 0, 0]) := by
  rw [configs_20_106]
  decide

/-- C8 (amended): at `n = 20`, `e = 106` the program produces exactly 24
configurations, the frozen prefix length is 4, and the first emitted
configuration is `2,2,2,2` followed by the residual pattern
`1 2 2 2 2 2 1 0 0 0 0 0`. -/
theorem claim_C8_amended :
    (configs 20 106).length = 24 ∧ min_en 20 106 = 4
      ∧ (configs 20 106).head? = some ([2, 2, 2, 2] ++ [1, 2, 2, 2, 2, 2, 1, 0, 0, 0, 0, 0]) := by
  have hx : (106 : ℚ) = ground_state_energy 20 + ((6 : ℕ) : ℚ) := by
    rw [gse20]
    norm_num
  refine ⟨?_, ?_, ?_⟩
  · rw [configs_20_106]
    rfl
  · rw [min_en_eq 20 106 6 hx]
    rfl
  · rw [configs_20_106]
    rfl

lemma gse2 : ground_state_energy 2 = 1 := by
  rw [gse_even 2 (by norm_num)]
  norm_num

/-- The program's complete behaviour at the spec's scenario `n = 2`,
`e = 0.5`: the parity and ground-state checks both fail, the search space
degenerates, and no configuration is emitted. -/
lemma configs_2_half : configs 2 ((1 : ℚ) / 2) = [] := by
  have hsl : (electron_states 2).length = 1 := by
    rw [states_length]
  have hmax : max_en 2 ((1 : ℚ) / 2) = 0 := by
    unfold max_en
    rw [hsl, gse2]
    norm_num [pyInt]
  have hminr : min_en 2 ((1 : ℚ) / 2) = 1 := by
    unfold min_en
    rw [hsl, gse2]
    norm_num [pyInt]
  have htot : totalLen 2 ((1 : ℚ) / 2) = 1 := by
    unfold totalLen
    rw [hsl, hmax]
    rfl
  have hres : resEnergy 2 ((1 : ℚ) / 2) = [] := by
    unfold resEnergy energyFull
    rw [htot, hminr]
    rfl
  have hue : updated_e 2 ((1 : ℚ) / 2) = -(1 / 2) := by
    unfold updated_e temp_energy
    rw [if_neg (by rw [hminr]; norm_num), hminr]
    unfold energyFull
    rw [htot]
    norm_num [energyListQ, dotQQ, List.replicate]
  have hpred : ¬ (((([] : List ℕ).sum : ℤ) = updated_n 2 ((1 : ℚ) / 2))
      ∧ dotQ [] (resEnergy 2 ((1 : ℚ) / 2)) = updated_e 2 ((1 : ℚ) / 2)) := by
    rintro ⟨-, h2⟩
    rw [hue] at h2
    norm_num [dotQ] at h2
  unfold configs emittedTails
  rw [show (resEnergy 2 ((1 : ℚ) / 2)).length = 0 from by rw [hres]; rfl]
  rw [filter_allLists_zero_neg (decide_eq_false hpred)]
  rfl

/-- C9 (counterexample): at `n = 2`, `e = 0.5` the program reports zero
configurations, not the single configuration `[2]` claimed by the spec (the
ground-state energy of 2 particles is `1.0`, not `0.5`). -/
theorem claim_C9_counterexample :
    configs 2 ((1 : ℚ) / 2) = [] ∧ configs 2 ((1 : ℚ) / 2) ≠ [[2]] := by
  refine ⟨configs_2_half, ?_⟩
  rw [configs_2_half]
  simp

/-- C9 (amended): the input `n = 2`, `e = 0.5` is invalid (the warning is
printed, `0.5` lying below the 2-particle ground-state energy `1.0`) and zero
configurations are reported; at the actual ground-state energy `e = 1.0` the
program reports exactly one configuration, `[2]`. -/
theorem claim_C9_amended :
    invalidValuesSignaled 2 ((1 : ℚ) / 2) ∧ configs 2 ((1 : ℚ) / 2) = []
      ∧ ground_state_energy 2 = 1 ∧ configs 2 1 = [[2]] := by
  refine ⟨Or.inr (by rw [gse2]; norm_num), configs_2_half, gse2, ?_⟩
  have hx : (1 : ℚ) = ground_state_energy 2 + ((0 : ℕ) : ℚ) := by
    rw [gse2]
    norm_num
  have hmin : (min_en 2 1).toNat = 1 := by
    rw [min_en_toNat 2 1 0 hx]
  have hres : resEnergy 2 1 = energyListQ 1 0 := by
    have h := resEnergy_eq 2 1 0 hx
    norm_num at h
    exact h
  have hL : (resEnergy 2 1).length = 0 := by
    rw [hres]
    rfl
  have hpred : ((([] : List ℕ).sum : ℤ) = updated_n 2 1
      ∧ dotQ [] (resEnergy 2 1) = updated_e 2 1) := by
    constructor
    · rw [updated_n_eq 2 1 0 hx]
      norm_num
    · rw [updated_e_eq 2 1 0 hx]
      norm_num [dotQ]
  unfold configs emittedTails
  rw [hL, filter_allLists_zero_pos (decide_eq_true hpred), hmin]
  rfl

end ElectronicConfig
